import Mathlib

/-!
# LUMEO face-clustering core: a shallow embedding

This file embeds the identity-clustering and representative-selection core of
the LUMEO photo organizer (`backend/services/face_service.py` and the
face-clustering part of `backend/app.py`) and proves the spec's testable
properties about it.

Modelling conventions:
* Embedding vectors are `List ℚ`; sklearn's float arithmetic is modelled by
  exact rational arithmetic.  The Euclidean comparison `dist(a,b) ≤ eps` is
  modelled as `sqDist a b ≤ eps^2`, which is equivalent for `0 ≤ eps`.
* `FaceService.cluster_faces` delegates to `sklearn.cluster.DBSCAN`
  (`metric='euclidean'`).  DBSCAN is embedded with sklearn's deterministic
  scan-order semantics: a point is *core* when its `eps`-neighbourhood
  (itself included) has at least `min_samples` points; clusters are the
  connected components of the core points under the `≤ eps` relation,
  numbered `0, 1, 2, …` in order of their smallest core index; a non-core
  point within `eps` of a core point (a *border* point) receives the label of
  the earliest-formed such cluster; every other non-core point is noise
  (`-1`).
* Components are computed by a fuel-bounded closure (`growStep` iterated
  `pts.length` times), which is proved below to coincide with reflexive
  transitive reachability over core points.
-/

set_option maxHeartbeats 1000000

namespace Lumeo

/-- A face embedding vector (exact-rational model of a numpy float vector). -/
abbrev Emb := List ℚ

/-- Squared Euclidean distance between two embedding vectors
(`np.linalg.norm(a-b)**2` over the common coordinates). -/
def sqDist (a b : Emb) : ℚ := (List.zipWith (fun x y => (x - y) ^ 2) a b).sum

/-- `dist(a,b) ≤ eps`, expressed on squares (equivalent for `0 ≤ eps`). -/
def withinEps (eps : ℚ) (a b : Emb) : Bool := decide (sqDist a b ≤ eps ^ 2)

/-- The embedding stored at index `i` of the batch. -/
def embAt (pts : List Emb) (i : Nat) : Emb := pts.getD i []

/-- Indices of the points in the `eps`-neighbourhood of point `i`
(point `i` itself included), in index order — DBSCAN's neighbourhood query. -/
def nbrs (pts : List Emb) (eps : ℚ) (i : Nat) : List Nat :=
  (List.range pts.length).filter (fun j => withinEps eps (embAt pts i) (embAt pts j))

/-- DBSCAN core point: at least `min_samples` points within `eps`. -/
def isCore (pts : List Emb) (eps : ℚ) (ms : Nat) (i : Nat) : Bool :=
  decide (ms ≤ (nbrs pts eps i).length)

/-- One expansion step of a cluster over the core graph: append every core
point (in index order) adjacent to some already-collected point. -/
def growStep (pts : List Emb) (eps : ℚ) (ms : Nat) (S : List Nat) : List Nat :=
  S ++ (List.range pts.length).filter
    (fun j => isCore pts eps ms j && decide (j ∉ S) &&
       S.any (fun k => withinEps eps (embAt pts k) (embAt pts j)))

/-- The core-graph component of point `i`: `growStep` iterated `pts.length`
times (enough fuel to reach the fixpoint, as proved below). -/
def coreComp (pts : List Emb) (eps : ℚ) (ms : Nat) (i : Nat) : List Nat :=
  (growStep pts eps ms)^[pts.length] [i]

/-- Representative (smallest index) of the core component of `i`. -/
def compRep (pts : List Emb) (eps : ℚ) (ms : Nat) (i : Nat) : Nat :=
  (coreComp pts eps ms i).foldr min i

/-- A core point that is the smallest index of its own component; cluster
labels count these, in index order, mirroring sklearn's label numbering. -/
def isRep (pts : List Emb) (eps : ℚ) (ms : Nat) (m : Nat) : Bool :=
  isCore pts eps ms m && decide (compRep pts eps ms m = m)

/-- The cluster label of the component whose representative is `r`: the
number of representatives with a smaller index. -/
def labelFromRep (pts : List Emb) (eps : ℚ) (ms : Nat) (r : Nat) : Nat :=
  ((List.range pts.length).filter (fun m => isRep pts eps ms m && decide (m < r))).length

/-- Representatives of the core points adjacent to point `i`. -/
def adjCoreReps (pts : List Emb) (eps : ℚ) (ms : Nat) (i : Nat) : List Nat :=
  ((nbrs pts eps i).filter (fun j => isCore pts eps ms j)).map (compRep pts eps ms)

/-- DBSCAN label of point `i`: a core point gets its component's label; a
border point gets the label of the earliest-formed adjacent cluster (the one
with the smallest representative); everything else is noise (`-1`). -/
def labelOf (pts : List Emb) (eps : ℚ) (ms : Nat) (i : Nat) : Int :=
  if isCore pts eps ms i then (labelFromRep pts eps ms (compRep pts eps ms i) : Int)
  else
    match adjCoreReps pts eps ms i with
    | [] => -1
    | r :: rs => (labelFromRep pts eps ms (rs.foldr min r) : Int)

/-- `DBSCAN(eps, min_samples, metric='euclidean').fit_predict(pts)`. -/
def dbscanLabels (pts : List Emb) (eps : ℚ) (ms : Nat) : List Int :=
  (List.range pts.length).map (labelOf pts eps ms)

/-- `FaceService.cluster_faces(encodings, quality_scores, min_samples, eps)`:
returns `[]` on an empty batch, otherwise the DBSCAN labels.  (The
`quality_scores` argument of the source function is never used by it and is
omitted.) -/
def cluster_faces (encodings : List Emb) (min_samples : Nat := 1)
    (eps : ℚ := 6/10) : List Int :=
  if encodings.length = 0 then [] else dbscanLabels encodings eps min_samples

/-! ## Face quality (`FaceService._calculate_face_quality`)

The upstream image statistics (Laplacian variance of the grayscale face
region, its mean brightness) are opaque collaborator outputs and enter as
parameters; the bounding box is `(top, right, bottom, left)` in pixels. -/

/-- `min(laplacian_var / 500, 1.0)`. -/
def sharpness_score (laplacian_var : ℚ) : ℚ := min (laplacian_var / 500) 1

/-- `1.0 - abs(brightness - 127) / 127`. -/
def brightness_score (brightness : ℚ) : ℚ := 1 - |brightness - 127| / 127

/-- `min(face_area / 40000, 1.0)` with `face_area = (bottom-top)*(right-left)`. -/
def size_score (top right bottom left : ℤ) : ℚ :=
  min ((((bottom - top) * (right - left) : ℤ) : ℚ) / 40000) 1

/-- `max(0, 1 - abs(aspect_ratio - 1))` with
`aspect_ratio = width/height if height > 0 else 0`. -/
def aspect_score (top right bottom left : ℤ) : ℚ :=
  let h : ℤ := bottom - top
  let w : ℤ := right - left
  let ar : ℚ := if 0 < h then (w : ℚ) / (h : ℚ) else 0
  max 0 (1 - |ar - 1|)

/-- Python's `round(q, 3)`.  (Python rounds half to even; the model rounds
half up, which agrees with Python at every non-tie, and no instance used in
this file hits a tie.) -/
def pyRound3 (q : ℚ) : ℚ := ((round (q * 1000) : ℤ) : ℚ) / 1000

/-- `FaceService._calculate_face_quality`, as a function of the image
statistics of the face region and the bounding box: the weighted combination
`0.35·sharpness + 0.25·brightness + 0.25·size + 0.15·aspect`, rounded to
three decimals. -/
def calculate_face_quality (laplacian_var brightness : ℚ)
    (top right bottom left : ℤ) : ℚ :=
  pyRound3 (sharpness_score laplacian_var * (35/100) +
            brightness_score brightness * (25/100) +
            size_score top right bottom left * (25/100) +
            aspect_score top right bottom left * (15/100))

/-! ## Representative selection (`FaceService.select_best_face`) -/

/-- One face record of `all_faces_data` in `app.py` (the fields that matter
to clustering and selection; `faceId` models the creation-order identifier
of a FaceObservation). -/
structure FaceData where
  photoId : Nat
  faceId : Nat
  encoding : Emb
  quality : ℚ
deriving Repr, DecidableEq, Inhabited

/-- Python's `max(x :: xs, key=key)`: the fold replaces the current best only
on a strictly larger key, so the first maximal element wins. -/
def pyMaxBy {α : Type} (key : α → ℚ) (x : α) (xs : List α) : α :=
  xs.foldl (fun b a => if key b < key a then a else b) x

/-- `FaceService.select_best_face(faces_data)`:
`None` on an empty list, else `max(faces_data, key=quality_score)`. -/
def select_best_face (faces_data : List FaceData) : Option FaceData :=
  match faces_data with
  | [] => none
  | x :: xs => some (pyMaxBy (fun f => f.quality) x xs)

/-! ## Thumbnail extraction (`FaceService.extract_face_thumbnail`) -/

/-- The cropped source-image region of a face thumbnail. -/
structure ThumbRegion where
  top : ℤ
  left : ℤ
  bottom : ℤ
  right : ℤ
deriving Repr, DecidableEq

/-- The pure geometry of `FaceService.extract_face_thumbnail`: pad the
bounding box by `padding` on every side, clamp to the image bounds, and
resize the region to the fixed `(200, 200)` square.  Returns the clamped
region together with the output size. -/
def extract_face_thumbnail (top right bottom left : ℤ) (height width : ℤ)
    (padding : ℤ := 40) : ThumbRegion × (ℤ × ℤ) :=
  ({ top := max 0 (top - padding)
     left := max 0 (left - padding)
     bottom := min height (bottom + padding)
     right := min width (right + padding) }, (200, 200))

/-! ## The clustering step of `app.py process_photos`

`process_photos` clusters the batch, groups face indices by label into an
insertion-ordered dict keyed `cluster_{label}` (skipping label `-1`), and
then emits one `FaceEmbedding` row and one `PhotoCluster` row per grouped
face.  A `Cluster` row keyed by the raw label is created when absent. -/

/-- Append face index `idx` to the entry of `label` in the insertion-ordered
cluster dict (`clusters[cluster_id]['faces'].append(...)`). -/
def addToClusters (clusters : List (Int × List Nat)) (label : Int) (idx : Nat) :
    List (Int × List Nat) :=
  match clusters with
  | [] => [(label, [idx])]
  | c :: rest =>
      if c.1 = label then (c.1, c.2 ++ [idx]) :: rest
      else c :: addToClusters rest label idx

/-- The `for idx, label in enumerate(labels)` grouping loop, skipping noise:
`idx` counts from `k`, the accumulator is the insertion-ordered dict. -/
def buildClustersAux (k : Nat) (labels : List Int) (cs : List (Int × List Nat)) :
    List (Int × List Nat) :=
  match labels with
  | [] => cs
  | l :: rest => buildClustersAux (k + 1) rest (if l = -1 then cs else addToClusters cs l k)

/-- Group face indices by cluster label, skipping the noise label `-1`. -/
def buildClusters (labels : List Int) : List (Int × List Nat) :=
  buildClustersAux 0 labels []

/-- The `(face index, cluster label)` pairs of a grouped cluster dict, in the
order the save loop walks them. -/
def flattenClusters (cs : List (Int × List Nat)) : List (Nat × Int) :=
  cs.flatMap (fun c => c.2.map (fun i => (i, c.1)))

/-- The `(face index, cluster label)` rows emitted by the save loop, one per
face of each grouped cluster, in emission order. -/
def clusterRows (labels : List Int) : List (Nat × Int) :=
  flattenClusters (buildClusters labels)

/-- The persisted state mutated by `process_photos`: existing `Cluster` keys
(raw labels standing for the `cluster_{label}` strings) and the append-only
`FaceEmbedding` / `PhotoCluster` rows. -/
structure DBState where
  clusterIds : List Int
  faceAssign : List (Nat × Int)
  photoLinks : List (Nat × Int)
deriving Repr, DecidableEq

/-- The empty database. -/
def DBState.init : DBState := ⟨[], [], []⟩

/-- One `process_photos` run over a batch of freshly analysed faces: cluster
with the hard-coded `min_samples=1, eps=0.6`, create missing `Cluster` rows
keyed by the raw label, and append one `FaceEmbedding` row
(`(faceId, label)`) and one `PhotoCluster` row (`(photoId, label)`) per
non-noise face. -/
def processRun (st : DBState) (batch : List FaceData) : DBState :=
  let labels := cluster_faces (batch.map (fun f => f.encoding)) 1 (6/10)
  let rows := clusterRows labels
  { clusterIds := st.clusterIds ++
      ((buildClusters labels).map (fun c => c.1)).filter
        (fun l => decide (l ∉ st.clusterIds))
    faceAssign := st.faceAssign ++ rows.map (fun r => ((batch.getD r.1 default).faceId, r.2))
    photoLinks := st.photoLinks ++ rows.map (fun r => ((batch.getD r.1 default).photoId, r.2)) }

/-! ## Basic facts about the distance model -/

theorem sqDist_cons (x y : ℚ) (xs ys : Emb) :
    sqDist (x :: xs) (y :: ys) = (x - y) ^ 2 + sqDist xs ys := by
  simp [sqDist]

theorem sqDist_self (a : Emb) : sqDist a a = 0 := by
  induction a with
  | nil => rfl
  | cons x xs ih => simp [sqDist_cons, ih]

theorem sqDist_comm (a b : Emb) : sqDist a b = sqDist b a := by
  induction a generalizing b with
  | nil => cases b <;> rfl
  | cons x xs ih =>
    cases b with
    | nil => rfl
    | cons y ys =>
      rw [sqDist_cons, sqDist_cons, ih ys]
      congr 1
      ring

theorem withinEps_self (eps : ℚ) (a : Emb) : withinEps eps a a = true := by
  simp [withinEps, sqDist_self]
  positivity

theorem withinEps_comm (eps : ℚ) (a b : Emb) : withinEps eps a b = withinEps eps b a := by
  simp [withinEps, sqDist_comm]

theorem withinEps_mono {eps1 eps2 : ℚ} (h0 : 0 ≤ eps1) (h12 : eps1 ≤ eps2) {a b : Emb}
    (h : withinEps eps1 a b = true) : withinEps eps2 a b = true := by
  simp only [withinEps, decide_eq_true_eq] at h ⊢
  exact le_trans h (pow_le_pow_left₀ h0 h12 2)

theorem mem_nbrs {pts : List Emb} {eps : ℚ} {i j : Nat} :
    j ∈ nbrs pts eps i ↔
      j < pts.length ∧ withinEps eps (embAt pts i) (embAt pts j) = true := by
  simp [nbrs, List.mem_filter, List.mem_range, and_comm]

/-- With `min_samples = 1` every point of the batch is a core point: its own
neighbourhood contains itself. -/
theorem isCore_one {pts : List Emb} (eps : ℚ) {i : Nat} (hi : i < pts.length) :
    isCore pts eps 1 i = true := by
  have hmem : i ∈ nbrs pts eps i := mem_nbrs.mpr ⟨hi, withinEps_self eps _⟩
  simp only [isCore, decide_eq_true_eq]
  exact List.length_pos.mpr (List.ne_nil_of_mem hmem)

theorem isCore_mono {pts : List Emb} {eps1 eps2 : ℚ} {ms i : Nat}
    (h0 : 0 ≤ eps1) (h12 : eps1 ≤ eps2)
    (hc : isCore pts eps1 ms i = true) : isCore pts eps2 ms i = true := by
  simp only [isCore, decide_eq_true_eq, nbrs, ← List.countP_eq_length_filter] at hc ⊢
  exact le_trans hc (List.countP_mono_left (fun j _ h => withinEps_mono h0 h12 h))

/-! ## The core-graph closure computed by `coreComp` -/

/-- Prop-level adjacency between two core points of the batch. -/
def CoreAdj (pts : List Emb) (eps : ℚ) (ms : Nat) (a b : Nat) : Prop :=
  a < pts.length ∧ b < pts.length ∧
  isCore pts eps ms a = true ∧ isCore pts eps ms b = true ∧
  withinEps eps (embAt pts a) (embAt pts b) = true

/-- Reachability through chains of adjacent core points. -/
def CoreReach (pts : List Emb) (eps : ℚ) (ms : Nat) : Nat → Nat → Prop :=
  Relation.ReflTransGen (CoreAdj pts eps ms)

theorem coreAdj_symm {pts : List Emb} {eps : ℚ} {ms : Nat} :
    Symmetric (CoreAdj pts eps ms) := by
  rintro a b ⟨ha, hb, hca, hcb, hd⟩
  exact ⟨hb, ha, hcb, hca, by rwa [withinEps_comm]⟩

theorem coreReach_symm {pts : List Emb} {eps : ℚ} {ms : Nat} :
    Symmetric (CoreReach pts eps ms) :=
  Relation.ReflTransGen.symmetric coreAdj_symm

theorem coreAdj_mono {pts : List Emb} {eps1 eps2 : ℚ} {ms : Nat}
    (h0 : 0 ≤ eps1) (h12 : eps1 ≤ eps2) {a b : Nat} (h : CoreAdj pts eps1 ms a b) :
    CoreAdj pts eps2 ms a b := by
  obtain ⟨ha, hb, hca, hcb, hd⟩ := h
  exact ⟨ha, hb, isCore_mono h0 h12 hca, isCore_mono h0 h12 hcb, withinEps_mono h0 h12 hd⟩

theorem mem_growStep {pts : List Emb} {eps : ℚ} {ms : Nat} {S : List Nat} {j : Nat} :
    j ∈ growStep pts eps ms S ↔
      j ∈ S ∨ (j < pts.length ∧ isCore pts eps ms j = true ∧ j ∉ S ∧
        ∃ k ∈ S, withinEps eps (embAt pts k) (embAt pts j) = true) := by
  simp [growStep, List.mem_filter, List.mem_range, List.any_eq_true,
    Bool.and_eq_true, decide_eq_true_eq, and_assoc, and_comm, and_left_comm]

theorem self_mem_comp (pts : List Emb) (eps : ℚ) (ms i : Nat) :
    i ∈ coreComp pts eps ms i := by
  suffices h : ∀ k, i ∈ (growStep pts eps ms)^[k] [i] from h pts.length
  intro k
  induction k with
  | zero => simp
  | succ k ih =>
    rw [Function.iterate_succ_apply']
    exact mem_growStep.mpr (Or.inl ih)

theorem comp_elem_spec {pts : List Emb} {eps : ℚ} {ms i : Nat}
    (hi : i < pts.length) (hic : isCore pts eps ms i = true) :
    ∀ j ∈ coreComp pts eps ms i, j < pts.length ∧ isCore pts eps ms j = true := by
  suffices h : ∀ k, ∀ j ∈ (growStep pts eps ms)^[k] [i],
      j < pts.length ∧ isCore pts eps ms j = true from h pts.length
  intro k
  induction k with
  | zero =>
    intro j hj
    simp only [Function.iterate_zero_apply, List.mem_singleton] at hj
    exact hj ▸ ⟨hi, hic⟩
  | succ k ih =>
    intro j hj
    rw [Function.iterate_succ_apply'] at hj
    rcases mem_growStep.mp hj with h | ⟨h1, h2, _⟩
    · exact ih j h
    · exact ⟨h1, h2⟩

theorem comp_nodup (pts : List Emb) (eps : ℚ) (ms i : Nat) :
    (coreComp pts eps ms i).Nodup := by
  suffices h : ∀ k, ((growStep pts eps ms)^[k] [i]).Nodup from h pts.length
  intro k
  induction k with
  | zero => simp
  | succ k ih =>
    rw [Function.iterate_succ_apply']
    refine List.Nodup.append ih (List.Nodup.filter _ (List.nodup_range _)) ?_
    intro a haS hafilter
    have := (List.mem_filter.mp hafilter).2
    simp only [Bool.and_eq_true, decide_eq_true_eq] at this
    exact this.1.2 haS

theorem length_le_of_nodup_lt {L : List Nat} {n : Nat}
    (hnd : L.Nodup) (hlt : ∀ x ∈ L, x < n) : L.length ≤ n := by
  calc L.length = L.toFinset.card := (List.toFinset_card_of_nodup hnd).symm
    _ ≤ (Finset.range n).card := Finset.card_le_card
        (fun x hx => Finset.mem_range.mpr (hlt x (List.mem_toFinset.mp hx)))
    _ = n := Finset.card_range n

theorem iterate_fixed {pts : List Emb} {eps : ℚ} {ms : Nat} {S : List Nat}
    (h : growStep pts eps ms S = S) : ∀ k, (growStep pts eps ms)^[k] S = S := by
  intro k
  induction k with
  | zero => rfl
  | succ k ih => rw [Function.iterate_succ_apply', ih, h]

theorem length_lt_growStep {pts : List Emb} {eps : ℚ} {ms : Nat} {S : List Nat}
    (h : growStep pts eps ms S ≠ S) : S.length < (growStep pts eps ms S).length := by
  by_cases ht : (List.range pts.length).filter
      (fun j => isCore pts eps ms j && decide (j ∉ S) &&
        S.any (fun k => withinEps eps (embAt pts k) (embAt pts j))) = []
  · refine absurd ?_ h
    unfold growStep
    rw [ht, List.append_nil]
  · have : 0 < ((List.range pts.length).filter
        (fun j => isCore pts eps ms j && decide (j ∉ S) &&
          S.any (fun k => withinEps eps (embAt pts k) (embAt pts j)))).length :=
      List.length_pos.mpr ht
    simp only [growStep, List.length_append]
    omega

theorem fix_or_long (pts : List Emb) (eps : ℚ) (ms i : Nat) :
    ∀ k, (growStep pts eps ms)^[k + 1] [i] = (growStep pts eps ms)^[k] [i] ∨
      k + 1 ≤ ((growStep pts eps ms)^[k] [i]).length := by
  intro k
  induction k with
  | zero => exact Or.inr (by simp)
  | succ k ih =>
    have e2 : (growStep pts eps ms)^[k + 1 + 1] [i] =
        growStep pts eps ms ((growStep pts eps ms)^[k + 1] [i]) :=
      Function.iterate_succ_apply' _ _ _
    have e1 : (growStep pts eps ms)^[k + 1] [i] =
        growStep pts eps ms ((growStep pts eps ms)^[k] [i]) :=
      Function.iterate_succ_apply' _ _ _
    rcases ih with heq | hlen
    · left
      rw [e2, heq, ← e1]
      exact heq
    · by_cases hfix : growStep pts eps ms ((growStep pts eps ms)^[k] [i]) =
        (growStep pts eps ms)^[k] [i]
      · left
        rw [e2, e1, hfix]
        exact hfix
      · right
        rw [e1]
        have := length_lt_growStep hfix
        omega

/-- After `pts.length` iterations the closure has reached its fixpoint. -/
theorem growStep_coreComp {pts : List Emb} {eps : ℚ} {ms i : Nat}
    (hi : i < pts.length) (hic : isCore pts eps ms i = true) :
    growStep pts eps ms (coreComp pts eps ms i) = coreComp pts eps ms i := by
  rcases fix_or_long pts eps ms i pts.length with heq | hlen
  · have e : (growStep pts eps ms)^[pts.length + 1] [i] =
        growStep pts eps ms ((growStep pts eps ms)^[pts.length] [i]) :=
      Function.iterate_succ_apply' _ _ _
    unfold coreComp
    rw [← e]
    exact heq
  · have hb : ((growStep pts eps ms)^[pts.length] [i]).length ≤ pts.length :=
      length_le_of_nodup_lt (comp_nodup pts eps ms i)
        (fun x hx => (comp_elem_spec hi hic x hx).1)
    omega

/-- Soundness: every point the closure collects is core-reachable from `i`. -/
theorem coreReach_of_mem_comp {pts : List Emb} {eps : ℚ} {ms i : Nat}
    (hi : i < pts.length) (hic : isCore pts eps ms i = true) :
    ∀ j ∈ coreComp pts eps ms i, CoreReach pts eps ms i j := by
  suffices h : ∀ k, ∀ j ∈ (growStep pts eps ms)^[k] [i],
      (j < pts.length ∧ isCore pts eps ms j = true) ∧ CoreReach pts eps ms i j from
    fun j hj => (h pts.length j hj).2
  intro k
  induction k with
  | zero =>
    intro j hj
    simp only [Function.iterate_zero_apply, List.mem_singleton] at hj
    subst hj
    exact ⟨⟨hi, hic⟩, Relation.ReflTransGen.refl⟩
  | succ k ih =>
    intro j hj
    rw [Function.iterate_succ_apply'] at hj
    rcases mem_growStep.mp hj with h | ⟨h1, h2, _, a, haS, hadj⟩
    · exact ih j h
    · obtain ⟨⟨han, hac⟩, hreach⟩ := ih a haS
      exact ⟨⟨h1, h2⟩, hreach.tail ⟨han, h1, hac, h2, hadj⟩⟩

/-- The fixpoint is closed under core adjacency. -/
theorem mem_comp_of_adj {pts : List Emb} {eps : ℚ} {ms i : Nat}
    (hi : i < pts.length) (hic : isCore pts eps ms i = true) {a b : Nat}
    (ha : a ∈ coreComp pts eps ms i) (hab : CoreAdj pts eps ms a b) :
    b ∈ coreComp pts eps ms i := by
  by_contra hb
  obtain ⟨_, hbn, _, hbc, hadj⟩ := hab
  have : b ∈ growStep pts eps ms (coreComp pts eps ms i) :=
    mem_growStep.mpr (Or.inr ⟨hbn, hbc, hb, a, ha, hadj⟩)
  rw [growStep_coreComp hi hic] at this
  exact hb this

/-- Completeness: every point core-reachable from `i` is collected. -/
theorem mem_comp_of_reach {pts : List Emb} {eps : ℚ} {ms i j : Nat}
    (hi : i < pts.length) (hic : isCore pts eps ms i = true)
    (h : CoreReach pts eps ms i j) : j ∈ coreComp pts eps ms i := by
  induction h with
  | refl => exact self_mem_comp pts eps ms i
  | tail _ hadj ih => exact mem_comp_of_adj hi hic ih hadj

/-- Membership in a component is an equivalence: the component of any member
is the same set. -/
theorem comp_eq_of_mem {pts : List Emb} {eps : ℚ} {ms i j : Nat}
    (hi : i < pts.length) (hic : isCore pts eps ms i = true)
    (hj : j ∈ coreComp pts eps ms i) :
    ∀ x, x ∈ coreComp pts eps ms j ↔ x ∈ coreComp pts eps ms i := by
  obtain ⟨hjn, hjc⟩ := comp_elem_spec hi hic j hj
  have hij : CoreReach pts eps ms i j := coreReach_of_mem_comp hi hic j hj
  intro x
  constructor
  · intro hx
    exact mem_comp_of_reach hi hic
      (hij.trans (coreReach_of_mem_comp hjn hjc x hx))
  · intro hx
    exact mem_comp_of_reach hjn hjc
      ((coreReach_symm hij).trans (coreReach_of_mem_comp hi hic x hx))

/-! ## Fold-min and the component representative -/

theorem foldr_min_le {L : List Nat} {b a : Nat} (h : a ∈ L) : L.foldr min b ≤ a := by
  induction L with
  | nil => cases h
  | cons x xs ih =>
    rcases List.mem_cons.mp h with rfl | h2
    · exact min_le_left _ _
    · exact le_trans (min_le_right _ _) (ih h2)

theorem foldr_min_le_init (L : List Nat) (b : Nat) : L.foldr min b ≤ b := by
  induction L with
  | nil => exact le_refl b
  | cons x xs ih => exact le_trans (min_le_right _ _) ih

theorem foldr_min_mem (L : List Nat) (b : Nat) :
    L.foldr min b = b ∨ L.foldr min b ∈ L := by
  induction L with
  | nil => exact Or.inl rfl
  | cons x xs ih =>
    rcases le_total x (xs.foldr min b) with h | h
    · right
      simp [min_eq_left h]
    · rcases ih with h2 | h2
      · left
        simp only [List.foldr_cons]
        rw [min_eq_right h, h2]
      · right
        simp only [List.foldr_cons]
        rw [min_eq_right h]
        exact List.mem_cons_of_mem _ h2

theorem compRep_mem {pts : List Emb} {eps : ℚ} {ms i : Nat} :
    compRep pts eps ms i ∈ coreComp pts eps ms i := by
  rcases foldr_min_mem (coreComp pts eps ms i) i with h | h
  · rw [compRep, h]
    exact self_mem_comp pts eps ms i
  · exact h

theorem compRep_le {pts : List Emb} {eps : ℚ} {ms i : Nat} {j : Nat}
    (hj : j ∈ coreComp pts eps ms i) : compRep pts eps ms i ≤ j :=
  foldr_min_le hj

theorem compRep_eq_of_mem {pts : List Emb} {eps : ℚ} {ms i j : Nat}
    (hi : i < pts.length) (hic : isCore pts eps ms i = true)
    (hj : j ∈ coreComp pts eps ms i) :
    compRep pts eps ms j = compRep pts eps ms i := by
  have hcomp := comp_eq_of_mem hi hic hj
  refine le_antisymm ?_ ?_
  · exact compRep_le ((hcomp _).mpr compRep_mem)
  · exact compRep_le ((hcomp _).mp compRep_mem)

theorem compRep_isRep {pts : List Emb} {eps : ℚ} {ms i : Nat}
    (hi : i < pts.length) (hic : isCore pts eps ms i = true) :
    isRep pts eps ms (compRep pts eps ms i) = true := by
  obtain ⟨hrn, hrc⟩ := comp_elem_spec hi hic _ compRep_mem
  have hrr : compRep pts eps ms (compRep pts eps ms i) = compRep pts eps ms i :=
    compRep_eq_of_mem hi hic compRep_mem
  simp [isRep, hrc, hrr]

theorem compRep_lt_length {pts : List Emb} {eps : ℚ} {ms i : Nat}
    (hi : i < pts.length) (hic : isCore pts eps ms i = true) :
    compRep pts eps ms i < pts.length :=
  (comp_elem_spec hi hic _ compRep_mem).1

/-! ## Cluster labels -/

theorem countP_lt_of_witness {l : List Nat} {p q : Nat → Bool}
    (h : ∀ a ∈ l, p a = true → q a = true) {a : Nat} (ha : a ∈ l)
    (hq : q a = true) (hp : p a = false) : l.countP p < l.countP q := by
  induction l with
  | nil => cases ha
  | cons b t ih =>
    rcases List.mem_cons.mp ha with rfl | hat
    · have hmono : t.countP p ≤ t.countP q :=
        List.countP_mono_left (fun x hx => h x (List.mem_cons_of_mem _ hx))
      rw [List.countP_cons, List.countP_cons, hp, hq, if_pos rfl,
        if_neg Bool.false_ne_true]
      omega
    · have hstep := ih (fun x hx => h x (List.mem_cons_of_mem _ hx)) hat
      rw [List.countP_cons, List.countP_cons]
      have : (if p b = true then 1 else 0) ≤ (if q b = true then 1 else 0) := by
        by_cases hb : p b = true
        · simp [hb, h b (List.mem_cons_self b t) hb]
        · simp [hb]
      omega

theorem labelFromRep_lt {pts : List Emb} {eps : ℚ} {ms : Nat} {r1 r2 : Nat}
    (h1 : isRep pts eps ms r1 = true) (hr1n : r1 < pts.length) (h12 : r1 < r2) :
    labelFromRep pts eps ms r1 < labelFromRep pts eps ms r2 := by
  unfold labelFromRep
  rw [← List.countP_eq_length_filter, ← List.countP_eq_length_filter]
  refine countP_lt_of_witness ?_ (List.mem_range.mpr hr1n) ?_ ?_
  · intro a _ hpa
    simp only [Bool.and_eq_true, decide_eq_true_eq] at hpa ⊢
    exact ⟨hpa.1, lt_trans hpa.2 h12⟩
  · simp [h1, h12]
  · simp

theorem compRep_eq_of_labelFromRep_eq {pts : List Emb} {eps : ℚ} {ms i j : Nat}
    (hi : i < pts.length) (hic : isCore pts eps ms i = true)
    (hj : j < pts.length) (hjc : isCore pts eps ms j = true)
    (hl : labelFromRep pts eps ms (compRep pts eps ms i) =
          labelFromRep pts eps ms (compRep pts eps ms j)) :
    compRep pts eps ms i = compRep pts eps ms j := by
  rcases lt_trichotomy (compRep pts eps ms i) (compRep pts eps ms j) with h | h | h
  · exact absurd hl
      (ne_of_lt (labelFromRep_lt (compRep_isRep hi hic) (compRep_lt_length hi hic) h))
  · exact h
  · exact absurd hl.symm
      (ne_of_lt (labelFromRep_lt (compRep_isRep hj hjc) (compRep_lt_length hj hjc) h))

theorem labelOf_core {pts : List Emb} {eps : ℚ} {ms i : Nat}
    (hic : isCore pts eps ms i = true) :
    labelOf pts eps ms i = (labelFromRep pts eps ms (compRep pts eps ms i) : Int) := by
  simp [labelOf, hic]

/-- For core points, equal labels mean membership in the same component. -/
theorem label_eq_iff_mem {pts : List Emb} {eps : ℚ} {ms i j : Nat}
    (hi : i < pts.length) (hic : isCore pts eps ms i = true)
    (hj : j < pts.length) (hjc : isCore pts eps ms j = true) :
    labelOf pts eps ms j = labelOf pts eps ms i ↔ j ∈ coreComp pts eps ms i := by
  rw [labelOf_core hic, labelOf_core hjc]
  constructor
  · intro h
    have hlab : labelFromRep pts eps ms (compRep pts eps ms j) =
        labelFromRep pts eps ms (compRep pts eps ms i) := by exact_mod_cast h
    have hrep : compRep pts eps ms j = compRep pts eps ms i :=
      compRep_eq_of_labelFromRep_eq hj hjc hi hic hlab
    have hjr : CoreReach pts eps ms j (compRep pts eps ms j) :=
      coreReach_of_mem_comp hj hjc _ compRep_mem
    have hir : CoreReach pts eps ms i (compRep pts eps ms i) :=
      coreReach_of_mem_comp hi hic _ compRep_mem
    refine mem_comp_of_reach hi hic ?_
    exact hir.trans (hrep ▸ coreReach_symm hjr)
  · intro h
    rw [compRep_eq_of_mem hi hic h]

/-- Relating the count of indices of the same component to its size. -/
theorem countP_mem_range_eq_length {L : List Nat} {n : Nat}
    (hnd : L.Nodup) (hlt : ∀ x ∈ L, x < n) :
    (List.range n).countP (fun j => decide (j ∈ L)) = L.length := by
  rw [List.countP_eq_length_filter]
  have hperm : List.Perm ((List.range n).filter (fun j => decide (j ∈ L))) L := by
    rw [List.perm_ext_iff_of_nodup (List.Nodup.filter _ (List.nodup_range n)) hnd]
    intro a
    simp only [List.mem_filter, List.mem_range, decide_eq_true_eq]
    exact ⟨fun h => h.2, fun h => ⟨hlt a h, h⟩⟩
  exact hperm.length_eq

/-- With `min_samples = 1`, the number of faces sharing face `i`'s label is
the size of `i`'s core component. -/
theorem filter_label_length {pts : List Emb} {eps : ℚ} {i : Nat}
    (hi : i < pts.length) :
    ((dbscanLabels pts eps 1).filter
        (fun l => l == labelOf pts eps 1 i)).length =
      (coreComp pts eps 1 i).length := by
  unfold dbscanLabels
  rw [← List.countP_eq_length_filter, List.countP_map]
  have hcongr : ∀ j ∈ List.range pts.length,
      (((fun l => l == labelOf pts eps 1 i) ∘ labelOf pts eps 1) j = true ↔
        decide (j ∈ coreComp pts eps 1 i) = true) := by
    intro j hj
    have hjn := List.mem_range.mp hj
    have hiff := label_eq_iff_mem hi (isCore_one eps hi) hjn (isCore_one eps hjn)
    by_cases h : labelOf pts eps 1 j = labelOf pts eps 1 i
    · simp [Function.comp, h, hiff.mp h]
    · have : j ∉ coreComp pts eps 1 i := fun hmem => h (hiff.mpr hmem)
      simp [Function.comp, h, this]
  rw [List.countP_congr hcongr]
  exact countP_mem_range_eq_length (comp_nodup pts eps 1 i)
    (fun x hx => (comp_elem_spec hi (isCore_one eps hi) x hx).1)

/-! ## Monotonicity of components in `eps` -/

theorem comp_mono {pts : List Emb} {eps1 eps2 : ℚ} {i : Nat}
    (h0 : 0 ≤ eps1) (h12 : eps1 ≤ eps2) (hi : i < pts.length) :
    coreComp pts eps1 1 i ⊆ coreComp pts eps2 1 i := by
  intro j hj
  have hreach1 : CoreReach pts eps1 1 i j :=
    coreReach_of_mem_comp hi (isCore_one eps1 hi) j hj
  have hreach2 : CoreReach pts eps2 1 i j :=
    Relation.ReflTransGen.mono (fun a b h => coreAdj_mono h0 h12 h) hreach1
  exact mem_comp_of_reach hi (isCore_one eps2 hi) hreach2

theorem length_le_of_nodup_subset {L M : List Nat}
    (h1 : L.Nodup) (hsub : L ⊆ M) : L.length ≤ M.length := by
  calc L.length = L.toFinset.card := (List.toFinset_card_of_nodup h1).symm
    _ ≤ M.toFinset.card := Finset.card_le_card
        (fun x hx => List.mem_toFinset.mpr (hsub (List.mem_toFinset.mp hx)))
    _ ≤ M.length := List.toFinset_card_le M

/-! ## Small accessor lemmas -/

theorem cluster_faces_of_length_pos {pts : List Emb} {ms : Nat} {eps : ℚ}
    (h : pts.length ≠ 0) : cluster_faces pts ms eps = dbscanLabels pts eps ms :=
  if_neg h

theorem dbscanLabels_getD {pts : List Emb} {eps : ℚ} {ms i : Nat} {d : Int}
    (hi : i < pts.length) :
    (dbscanLabels pts eps ms).getD i d = labelOf pts eps ms i := by
  unfold dbscanLabels
  rw [List.getD_eq_getElem?_getD]
  rw [List.getElem?_map, List.getElem?_range hi]
  rfl

/-- With `min_samples = 1` every label is the non-negative component label. -/
theorem labelOf_one_nonneg {pts : List Emb} {eps : ℚ} {i : Nat}
    (hi : i < pts.length) : 0 ≤ labelOf pts eps 1 i := by
  rw [labelOf_core (isCore_one eps hi)]
  exact Int.natCast_nonneg _

/-! ## Properties of Python `max` and `select_best_face` -/

theorem pyMaxBy_mem {α : Type} (key : α → ℚ) (x : α) (xs : List α) :
    pyMaxBy key x xs ∈ x :: xs := by
  induction xs generalizing x with
  | nil => exact List.mem_singleton.mpr rfl
  | cons a l ih =>
    show pyMaxBy key (if key x < key a then a else x) l ∈ x :: a :: l
    by_cases hxa : key x < key a
    · rw [if_pos hxa]
      rcases List.mem_cons.mp (ih a) with h | h
      · rw [h]
        exact List.mem_cons_of_mem _ (List.mem_cons_self _ _)
      · exact List.mem_cons_of_mem _ (List.mem_cons_of_mem _ h)
    · rw [if_neg hxa]
      rcases List.mem_cons.mp (ih x) with h | h
      · rw [h]
        exact List.mem_cons_self _ _
      · exact List.mem_cons_of_mem _ (List.mem_cons_of_mem _ h)

theorem key_le_pyMaxBy_init {α : Type} (key : α → ℚ) (x : α) (xs : List α) :
    key x ≤ key (pyMaxBy key x xs) := by
  induction xs generalizing x with
  | nil => exact le_refl _
  | cons a l ih =>
    show key x ≤ key (pyMaxBy key (if key x < key a then a else x) l)
    by_cases hxa : key x < key a
    · rw [if_pos hxa]
      exact le_of_lt (lt_of_lt_of_le hxa (ih a))
    · rw [if_neg hxa]
      exact ih x

theorem le_key_pyMaxBy {α : Type} (key : α → ℚ) (x : α) (xs : List α) :
    ∀ f ∈ x :: xs, key f ≤ key (pyMaxBy key x xs) := by
  induction xs generalizing x with
  | nil =>
    intro f hf
    rw [List.mem_singleton.mp hf]
    exact le_refl _
  | cons a l ih =>
    intro f hf
    show key f ≤ key (pyMaxBy key (if key x < key a then a else x) l)
    rcases List.mem_cons.mp hf with rfl | hf2
    · by_cases hxa : key f < key a
      · rw [if_pos hxa]
        exact le_of_lt (lt_of_lt_of_le hxa (key_le_pyMaxBy_init key a l))
      · rw [if_neg hxa]
        exact key_le_pyMaxBy_init key f l
    · rcases List.mem_cons.mp hf2 with rfl | hf3
      · by_cases hxa : key x < key f
        · rw [if_pos hxa]
          exact key_le_pyMaxBy_init key f l
        · rw [if_neg hxa]
          exact le_trans (le_of_not_lt hxa) (key_le_pyMaxBy_init key x l)
      · by_cases hxa : key x < key a
        · rw [if_pos hxa]
          exact ih a f (List.mem_cons_of_mem _ hf3)
        · rw [if_neg hxa]
          exact ih x f (List.mem_cons_of_mem _ hf3)

theorem pyMaxBy_eq_or_lt {α : Type} (key : α → ℚ) (x : α) (xs : List α) :
    pyMaxBy key x xs = x ∨ key x < key (pyMaxBy key x xs) := by
  induction xs generalizing x with
  | nil => exact Or.inl rfl
  | cons a l ih =>
    show pyMaxBy key (if key x < key a then a else x) l = x ∨
      key x < key (pyMaxBy key (if key x < key a then a else x) l)
    by_cases hxa : key x < key a
    · rw [if_pos hxa]
      right
      exact lt_of_lt_of_le hxa (key_le_pyMaxBy_init key a l)
    · rw [if_neg hxa]
      exact ih x

/-- Ties between equal keys go to the earlier list element. -/
theorem pyMaxBy_tie_earliest (x : FaceData) (xs : List FaceData)
    (hpw : List.Pairwise (fun f g : FaceData => f.faceId < g.faceId) (x :: xs)) :
    ∀ f ∈ x :: xs, f.quality = (pyMaxBy (fun f => f.quality) x xs).quality →
      (pyMaxBy (fun f => f.quality) x xs).faceId ≤ f.faceId := by
  induction xs generalizing x with
  | nil =>
    intro f hf _
    rw [List.mem_singleton.mp hf]
    exact le_refl _
  | cons a l ih =>
    intro f hf hq
    by_cases hxa : (x.quality : ℚ) < a.quality
    · have hres : pyMaxBy (fun f => f.quality) x (a :: l) =
          pyMaxBy (fun f => f.quality) a l := by
        show pyMaxBy _ (if x.quality < a.quality then a else x) l = _
        rw [if_pos hxa]
      rw [hres] at hq ⊢
      rcases List.mem_cons.mp hf with rfl | hf2
      · exfalso
        have hle : a.quality ≤ (pyMaxBy (fun f => f.quality) a l).quality :=
          key_le_pyMaxBy_init _ a l
        rw [← hq] at hle
        exact absurd (lt_of_lt_of_le hxa hle) (lt_irrefl _)
      · exact ih a (hpw.sublist (List.sublist_cons_self _ _)) f hf2 hq
    · have hres : pyMaxBy (fun f => f.quality) x (a :: l) =
          pyMaxBy (fun f => f.quality) x l := by
        show pyMaxBy _ (if x.quality < a.quality then a else x) l = _
        rw [if_neg hxa]
      rw [hres] at hq ⊢
      have hsub : List.Pairwise (fun f g : FaceData => f.faceId < g.faceId) (x :: l) :=
        hpw.sublist (List.cons_sublist_cons.mpr (List.sublist_cons_self _ _))
      rcases List.mem_cons.mp hf with rfl | hf2
      · rcases pyMaxBy_eq_or_lt (fun g : FaceData => g.quality) f l with he | hlt
        · rw [he]
        · rw [hq] at hlt
          exact absurd hlt (lt_irrefl _)
      · rcases List.mem_cons.mp hf2 with rfl | hf3
        · rcases pyMaxBy_eq_or_lt (fun g : FaceData => g.quality) x l with he | hlt
          · rw [he]
            exact le_of_lt (List.rel_of_pairwise_cons hpw (List.mem_cons_self _ _))
          · rw [← hq] at hlt
            exact absurd hlt hxa
        · exact ih x hsub f (List.mem_cons_of_mem _ hf3) hq

/-- C6: the representative returned by `select_best_face` is a member of the
cluster with the highest `quality_score`; among members tying for the highest
score the earliest `face_id` wins (face ids are assigned in creation order,
which is the order of `faces_data`, so they increase along the list); and
when the maximum quality score is attained by exactly one member, the same
member is returned for every reordering of the input. -/
theorem select_best_face_spec (faces : List FaceData) (r : FaceData)
    (hr : select_best_face faces = some r)
    (hids : List.Pairwise (fun f g : FaceData => f.faceId < g.faceId) faces) :
    r ∈ faces ∧
    (∀ f ∈ faces, f.quality ≤ r.quality) ∧
    (∀ f ∈ faces, f.quality = r.quality → r.faceId ≤ f.faceId) ∧
    (∀ faces' : List FaceData, List.Perm faces' faces →
      (∀ f ∈ faces, f ≠ r → f.quality < r.quality) →
      select_best_face faces' = some r) := by
  match faces, hr with
  | [], hr => exact absurd hr (by simp [select_best_face])
  | x :: xs, hr =>
    have hrr : r = pyMaxBy (fun f => f.quality) x xs := by
      simpa [select_best_face] using hr.symm
    subst hrr
    refine ⟨pyMaxBy_mem _ x xs, le_key_pyMaxBy _ x xs, pyMaxBy_tie_earliest x xs hids, ?_⟩
    intro faces' hperm huniq
    match faces' , hperm with
    | [], hperm => exact absurd hperm.length_eq (by simp)
    | y :: ys, hperm =>
      show some (pyMaxBy (fun f => f.quality) y ys) = _
      congr 1
      have hmem' : pyMaxBy (fun f => f.quality) y ys ∈ x :: xs :=
        (hperm.mem_iff).mp (pyMaxBy_mem _ y ys)
      by_cases heq : pyMaxBy (fun f => f.quality) y ys =
          pyMaxBy (fun f => f.quality) x xs
      · exact heq
      · exfalso
        have hlt : (pyMaxBy (fun f => f.quality) y ys).quality <
            (pyMaxBy (fun f => f.quality) x xs).quality := huniq _ hmem' heq
        have hge : (pyMaxBy (fun f => f.quality) x xs).quality ≤
            (pyMaxBy (fun f => f.quality) y ys).quality :=
          le_key_pyMaxBy _ y ys _ ((hperm.mem_iff).mpr (pyMaxBy_mem _ x xs))
        exact absurd (lt_of_le_of_lt hge hlt) (lt_irrefl _)

/-- Witness for `select_best_face_spec`: a three-face cluster with qualities
1, 3, 2 and increasing face ids; the quality-3 face is selected. -/
theorem select_best_face_spec_witness :
    ((⟨6, 11, [2], 3⟩ : FaceData) ∈
      [(⟨5, 10, [1], 1⟩ : FaceData), ⟨6, 11, [2], 3⟩, ⟨7, 12, [3], 2⟩]) ∧
    (∀ f ∈ [(⟨5, 10, [1], 1⟩ : FaceData), ⟨6, 11, [2], 3⟩, ⟨7, 12, [3], 2⟩],
      f.quality ≤ (⟨6, 11, [2], 3⟩ : FaceData).quality) ∧
    (∀ f ∈ [(⟨5, 10, [1], 1⟩ : FaceData), ⟨6, 11, [2], 3⟩, ⟨7, 12, [3], 2⟩],
      f.quality = (⟨6, 11, [2], 3⟩ : FaceData).quality →
        (⟨6, 11, [2], 3⟩ : FaceData).faceId ≤ f.faceId) ∧
    (∀ faces' : List FaceData,
      List.Perm faces' [(⟨5, 10, [1], 1⟩ : FaceData), ⟨6, 11, [2], 3⟩, ⟨7, 12, [3], 2⟩] →
      (∀ f ∈ [(⟨5, 10, [1], 1⟩ : FaceData), ⟨6, 11, [2], 3⟩, ⟨7, 12, [3], 2⟩],
        f ≠ ⟨6, 11, [2], 3⟩ → f.quality < (⟨6, 11, [2], 3⟩ : FaceData).quality) →
      select_best_face faces' = some ⟨6, 11, [2], 3⟩) :=
  select_best_face_spec
    [⟨5, 10, [1], 1⟩, ⟨6, 11, [2], 3⟩, ⟨7, 12, [3], 2⟩] ⟨6, 11, [2], 3⟩
    (by decide) (by decide)

/-! ## Bounds on the quality-score components -/

theorem sharpness_score_bounds {v : ℚ} (hv : 0 ≤ v) :
    0 ≤ sharpness_score v ∧ sharpness_score v ≤ 1 :=
  ⟨le_min (by positivity) zero_le_one, min_le_right _ _⟩

theorem brightness_score_bounds {b : ℚ} (h0 : 0 ≤ b) (h1 : b ≤ 255) :
    -(1/127) ≤ brightness_score b ∧ brightness_score b ≤ 1 := by
  unfold brightness_score
  constructor
  · have habs : |b - 127| ≤ 128 := abs_le.mpr ⟨by linarith, by linarith⟩
    linarith
  · have habs : 0 ≤ |b - 127| := abs_nonneg _
    linarith

theorem size_score_bounds {top right bottom left : ℤ}
    (h1 : top ≤ bottom) (h2 : left ≤ right) :
    0 ≤ size_score top right bottom left ∧ size_score top right bottom left ≤ 1 := by
  unfold size_score
  constructor
  · refine le_min ?_ zero_le_one
    have harea : (0 : ℤ) ≤ (bottom - top) * (right - left) :=
      mul_nonneg (by omega) (by omega)
    have : (0 : ℚ) ≤ (((bottom - top) * (right - left) : ℤ) : ℚ) := by
      exact_mod_cast harea
    positivity
  · exact min_le_right _ _

theorem aspect_score_bounds (top right bottom left : ℤ) :
    0 ≤ aspect_score top right bottom left ∧ aspect_score top right bottom left ≤ 1 := by
  have h : ∀ z : ℚ, 0 ≤ max 0 (1 - |z - 1|) ∧ max 0 (1 - |z - 1|) ≤ 1 := by
    intro z
    exact ⟨le_max_left _ _, max_le (by norm_num) (by linarith [abs_nonneg (z - 1)])⟩
  exact h _

theorem round_mono_rat {x y : ℚ} (h : x ≤ y) : round x ≤ round y := by
  rw [round_eq, round_eq]
  exact Int.floor_le_floor (by linarith)

theorem pyRound3_bounds {q : ℚ} (h1 : -(1/508) ≤ q) (h2 : q ≤ 1) :
    -(1/500) ≤ pyRound3 q ∧ pyRound3 q ≤ 1 := by
  have hlow : round ((-(1/508) : ℚ) * 1000) = -2 := by
    rw [round_eq, Int.floor_eq_iff]
    norm_num
  have hup : round ((1 : ℚ) * 1000) = 1000 := by
    rw [round_eq]
    norm_num
  have hm1 : round (q * 1000) ≤ round ((1 : ℚ) * 1000) :=
    round_mono_rat (by nlinarith)
  have hm2 : round ((-(1/508) : ℚ) * 1000) ≤ round (q * 1000) :=
    round_mono_rat (by nlinarith)
  rw [hup] at hm1
  rw [hlow] at hm2
  unfold pyRound3
  constructor
  · have : ((-2 : ℤ) : ℚ) ≤ ((round (q * 1000) : ℤ) : ℚ) := by exact_mod_cast hm2
    push_cast at this
    linarith
  · have : ((round (q * 1000) : ℤ) : ℚ) ≤ ((1000 : ℤ) : ℚ) := by exact_mod_cast hm1
    push_cast at this
    linarith

/-! ## The grouping loop of `process_photos` -/

theorem flattenClusters_cons (c : Int × List Nat) (rest : List (Int × List Nat)) :
    flattenClusters (c :: rest) =
      c.2.map (fun i => (i, c.1)) ++ flattenClusters rest := rfl

theorem mem_flatten_addToClusters (cs : List (Int × List Nat)) (l : Int) (i : Nat)
    (j : Nat) (m : Int) :
    ((j, m) ∈ flattenClusters (addToClusters cs l i) ↔
      (j, m) ∈ flattenClusters cs ∨ (j = i ∧ m = l)) := by
  induction cs with
  | nil => simp [addToClusters, flattenClusters, and_comm]
  | cons c rest ih =>
    have hstep : addToClusters (c :: rest) l i =
        if c.1 = l then (c.1, c.2 ++ [i]) :: rest
        else c :: addToClusters rest l i := rfl
    rw [hstep]
    by_cases hc : c.1 = l
    · rw [if_pos hc, flattenClusters_cons, flattenClusters_cons]
      simp only [List.map_append, List.mem_append, List.map_cons, List.map_nil,
        List.mem_singleton, Prod.mk.injEq, hc]
      tauto
    · rw [if_neg hc, flattenClusters_cons, flattenClusters_cons]
      simp only [List.mem_append, ih]
      tauto

theorem mem_flatten_buildClustersAux (labels : List Int) :
    ∀ (k : Nat) (cs : List (Int × List Nat)) (j : Nat) (m : Int),
      ((j, m) ∈ flattenClusters (buildClustersAux k labels cs) ↔
        (j, m) ∈ flattenClusters cs ∨
          (k ≤ j ∧ labels[j - k]? = some m ∧ m ≠ -1)) := by
  induction labels with
  | nil =>
    intro k cs j m
    simp [buildClustersAux]
  | cons l rest ih =>
    intro k cs j m
    show (j, m) ∈ flattenClusters
        (buildClustersAux (k + 1) rest (if l = -1 then cs else addToClusters cs l k)) ↔ _
    rw [ih (k + 1)]
    have hidx : (k ≤ j ∧ (l :: rest)[j - k]? = some m ∧ m ≠ -1) ↔
        ((j = k ∧ m = l ∧ l ≠ -1) ∨
          (k + 1 ≤ j ∧ rest[j - (k + 1)]? = some m ∧ m ≠ -1)) := by
      rcases Nat.lt_trichotomy j k with hjk | rfl | hjk
      · constructor
        · rintro ⟨hle, -, -⟩
          omega
        · rintro (⟨rfl, -, -⟩ | ⟨hle, -, -⟩) <;> omega
      · rw [Nat.sub_self, List.getElem?_cons_zero]
        constructor
        · rintro ⟨-, hsome, hm⟩
          have hml : m = l := (Option.some.inj hsome).symm
          exact Or.inl ⟨rfl, hml, hml ▸ hm⟩
        · rintro (⟨-, rfl, hlm⟩ | ⟨hle, -, -⟩)
          · exact ⟨le_refl _, rfl, hlm⟩
          · omega
      · have hsub : j - k = (j - (k + 1)) + 1 := by omega
        rw [hsub, List.getElem?_cons_succ]
        constructor
        · rintro ⟨-, hg, hm⟩
          exact Or.inr ⟨by omega, hg, hm⟩
        · rintro (⟨rfl, -, -⟩ | ⟨-, hg, hm⟩)
          · omega
          · exact ⟨by omega, hg, hm⟩
    rw [hidx]
    by_cases hl : l = -1
    · rw [if_pos hl]
      subst hl
      tauto
    · rw [if_neg hl]
      rw [mem_flatten_addToClusters]
      constructor
      · rintro ((h | ⟨rfl, rfl⟩) | h)
        · exact Or.inl h
        · exact Or.inr (Or.inl ⟨rfl, rfl, hl⟩)
        · exact Or.inr (Or.inr h)
      · rintro (h | (⟨rfl, rfl, -⟩ | h))
        · exact Or.inl (Or.inl h)
        · exact Or.inl (Or.inr ⟨rfl, rfl⟩)
        · exact Or.inr h

/-- Membership in the rows emitted by the cluster-save loop, for an arbitrary
label list. -/
theorem mem_clusterRows (labels : List Int) (j : Nat) (m : Int) :
    ((j, m) ∈ clusterRows labels ↔ (labels[j]? = some m ∧ m ≠ -1)) := by
  unfold clusterRows buildClusters
  rw [mem_flatten_buildClustersAux labels 0 [] j m]
  simp [flattenClusters]

theorem labelOf_eq_neg_one_or_nonneg (pts : List Emb) (eps : ℚ) (ms i : Nat) :
    labelOf pts eps ms i = -1 ∨ 0 ≤ labelOf pts eps ms i := by
  unfold labelOf
  by_cases hc : isCore pts eps ms i = true
  · rw [if_pos hc]
    exact Or.inr (Int.natCast_nonneg _)
  · rw [if_neg hc]
    cases hadj : adjCoreReps pts eps ms i with
    | nil => simp [hadj]
    | cons r rs =>
      simp only [hadj]
      exact Or.inr (Int.natCast_nonneg _)

/-- C10: in the cluster-save loop of `process_photos`, face index `j`
contributes a `FaceEmbedding` membership row and a `PhotoCluster` edge
exactly when its clustering label `m` is not the noise sentinel: `(j, m)` is
among the emitted rows iff face `j`'s label is `m` and `m ≠ -1`; and every
label is either `-1` or non-negative, so only non-negative labels generate
records. -/
theorem noise_faces_generate_no_records (encodings : List Emb) (ms : Nat)
    (eps : ℚ) (j : Nat) (m : Int) :
    ((j, m) ∈ clusterRows (cluster_faces encodings ms eps) ↔
      ((cluster_faces encodings ms eps)[j]? = some m ∧ m ≠ -1)) ∧
    (∀ m', (cluster_faces encodings ms eps)[j]? = some m' → m' = -1 ∨ 0 ≤ m') := by
  refine ⟨mem_clusterRows _ j m, ?_⟩
  intro m' hm'
  by_cases hlen : encodings.length = 0
  · have hempty : cluster_faces encodings ms eps = [] := if_pos hlen
    rw [hempty] at hm'
    simp at hm'
  · rw [cluster_faces_of_length_pos hlen] at hm'
    rcases Nat.lt_or_ge j encodings.length with hj | hj
    · unfold dbscanLabels at hm'
      rw [List.getElem?_map, List.getElem?_range hj] at hm'
      simp only [Option.map_some', Option.some.injEq] at hm'
      exact hm' ▸ labelOf_eq_neg_one_or_nonneg encodings eps ms j
    · have hlen2 : (dbscanLabels encodings eps ms).length ≤ j := by
        simp only [dbscanLabels, List.length_map, List.length_range]
        omega
      rw [List.getElem?_eq_none hlen2] at hm'
      cases hm'

/-- Componentwise Cauchy–Schwarz-style bound: squared Euclidean distances
satisfy `d(a,c)² ≤ 2·d(a,b)² + 2·d(b,c)²`. -/
theorem sqDist_le_double (a : Emb) : ∀ b c : Emb, a.length = b.length →
    b.length = c.length → sqDist a c ≤ 2 * sqDist a b + 2 * sqDist b c := by
  induction a with
  | nil =>
    intro b c h1 h2
    have hb : b = [] := List.length_eq_zero.mp h1.symm
    have hc : c = [] := List.length_eq_zero.mp (hb ▸ h2).symm
    subst hb
    subst hc
    norm_num [sqDist]
  | cons x xs ih =>
    intro b c h1 h2
    cases b with
    | nil => simp at h1
    | cons y ys =>
      cases c with
      | nil => simp at h2
      | cons z zs =>
        rw [sqDist_cons, sqDist_cons, sqDist_cons]
        have hrec := ih ys zs (by simpa using h1) (by simpa using h2)
        nlinarith [sq_nonneg ((x - y) - (y - z))]

/-- An isolated face's component is just itself. -/
theorem coreComp_isolated {pts : List Emb} {eps : ℚ} {i : Nat}
    (hi : i < pts.length)
    (hiso : ∀ j < pts.length, j ≠ i → withinEps eps (embAt pts i) (embAt pts j) = false) :
    coreComp pts eps 1 i = [i] := by
  have hfix : growStep pts eps 1 [i] = [i] := by
    unfold growStep
    rw [List.filter_eq_nil_iff.mpr ?_, List.append_nil]
    intro j hj
    intro hpred
    simp only [Bool.and_eq_true, decide_eq_true_eq, List.any_eq_true,
      List.mem_singleton] at hpred
    obtain ⟨⟨hcore, hnotmem⟩, k, hk, hadj⟩ := hpred
    rw [hk] at hadj
    have hjn := List.mem_range.mp hj
    rw [hiso j hjn hnotmem] at hadj
    cases hadj
  exact iterate_fixed hfix pts.length

/-- C2: with `min_samples = 1` every face of a non-empty batch receives a
non-negative cluster label — never the noise sentinel `-1` — and a face with
no other face within `eps` of it is placed in its own one-element cluster. -/
theorem min_samples_one_no_noise (pts : List Emb) (eps : ℚ) (i : Nat)
    (hi : i < pts.length) :
    0 ≤ (cluster_faces pts 1 eps).getD i (-1) ∧
    (cluster_faces pts 1 eps).getD i (-1) ≠ -1 ∧
    ((∀ j < pts.length, j ≠ i → withinEps eps (embAt pts i) (embAt pts j) = false) →
      ((cluster_faces pts 1 eps).filter
          (fun l => l == (cluster_faces pts 1 eps).getD i (-1))).length = 1) := by
  have hlen : pts.length ≠ 0 := by omega
  rw [cluster_faces_of_length_pos hlen, dbscanLabels_getD hi]
  refine ⟨labelOf_one_nonneg hi, ?_, ?_⟩
  · have := @labelOf_one_nonneg pts eps i hi
    omega
  · intro hiso
    rw [filter_label_length hi, coreComp_isolated hi hiso]
    rfl

unseal Rat.add Rat.mul Rat.inv Rat.sub in
/-- Witness for `min_samples_one_no_noise`: two isolated faces `[0]`, `[10]`
with `eps = 0.6`; face 0 gets a non-negative label and a singleton cluster. -/
theorem min_samples_one_no_noise_witness :
    0 ≤ (cluster_faces [[0], [10]] 1 (6/10)).getD 0 (-1) ∧
    (cluster_faces [[0], [10]] 1 (6/10)).getD 0 (-1) ≠ -1 ∧
    ((cluster_faces [[0], [10]] 1 (6/10)).filter
        (fun l => l == (cluster_faces [[0], [10]] 1 (6/10)).getD 0 (-1))).length = 1 := by
  have h := min_samples_one_no_noise [[0], [10]] (6/10) 0 (by decide)
  exact ⟨h.1, h.2.1, h.2.2 (by decide)⟩

/-- C3 counterexample: no three embedding vectors of a common dimension have
pairwise Euclidean distances 0.3, 0.3, 0.9 — such distances violate the
triangle inequality (0.9 > 0.3 + 0.3), so the example in the spec is
unrealizable.  On squared distances, `sqDist a c ≤ 2·sqDist a b + 2·sqDist b c`
would force 0.81 ≤ 0.36. -/
theorem spec_chain_distances_unrealizable :
    ¬ ∃ a b c : Emb, a.length = b.length ∧ b.length = c.length ∧
      sqDist a b = 9/100 ∧ sqDist b c = 9/100 ∧ sqDist a c = 81/100 := by
  rintro ⟨a, b, c, h1, h2, d1, d2, d3⟩
  have hle := sqDist_le_double a b c h1 h2
  rw [d1, d2, d3] at hle
  norm_num at hle

unseal Rat.add Rat.mul Rat.inv Rat.sub in
/-- C3 amended: for the realizable chain A = [0], B = [0.5], C = [1] —
d(A,B) = d(B,C) = 0.5 ≤ 0.6 while d(A,C) = 1 > 0.6 — clustering with
`eps = 0.6`, `min_samples = 1` puts all three faces in one cluster
(transitive chaining through B) even though d(A,C) exceeds `eps`. -/
theorem chain_example_single_cluster :
    sqDist [(0 : ℚ)] [1/2] = 1/4 ∧ sqDist [(1/2 : ℚ)] [1] = 1/4 ∧
    sqDist [(0 : ℚ)] [1] = 1 ∧ ¬ (sqDist [(0 : ℚ)] [1] ≤ (6/10) ^ 2) ∧
    cluster_faces [[0], [1/2], [1]] 1 (6/10) = [0, 0, 0] := by
  exact ⟨by decide, by decide, by decide, by decide, by decide⟩

/-- C4: clustering is deterministic — two runs of `cluster_faces` on the same
input (same encodings, `min_samples`, `eps`) produce identical label
sequences; in the embedding the clustering pipeline is a pure function. -/
theorem cluster_faces_deterministic (encodings : List Emb) (min_samples : Nat)
    (eps : ℚ) :
    cluster_faces encodings min_samples eps =
      cluster_faces encodings min_samples eps := rfl

unseal Rat.add Rat.mul Rat.inv Rat.sub in
/-- C5 counterexample (`min_samples = 4`): the face at index 4 lies in a
4-element cluster at `eps = 10`, but in a 3-element cluster at `eps = 15`:
the border face at index 7 is captured by the earlier-numbered cluster once
`eps` grows, so increasing `eps` shrinks the cluster — the claim fails for
`min_samples > 1`. -/
theorem eps_increase_shrinks_cluster :
    (0 : ℚ) ≤ 10 ∧ (10 : ℚ) ≤ 15 ∧
    cluster_faces [[-14], [-20], [-22], [-24], [10], [19], [20], [0]] 4 10 =
      [0, 0, 0, 0, 1, 1, 1, 1] ∧
    cluster_faces [[-14], [-20], [-22], [-24], [10], [19], [20], [0]] 4 15 =
      [0, 0, 0, 0, 1, 1, 1, 0] ∧
    ((cluster_faces [[-14], [-20], [-22], [-24], [10], [19], [20], [0]] 4 10).filter
        (fun l => l == (cluster_faces [[-14], [-20], [-22], [-24], [10], [19], [20], [0]]
          4 10).getD 4 (-1))).length = 4 ∧
    ((cluster_faces [[-14], [-20], [-22], [-24], [10], [19], [20], [0]] 4 15).filter
        (fun l => l == (cluster_faces [[-14], [-20], [-22], [-24], [10], [19], [20], [0]]
          4 15).getD 4 (-1))).length = 3 := by
  exact ⟨by decide, by decide, by decide, by decide, by decide, by decide⟩

/-- C5 amended: with `min_samples = 1` (the value the pipeline always uses),
increasing `eps` never decreases the size of the cluster containing any given
face: for `0 ≤ eps1 ≤ eps2`, the number of faces sharing face `i`'s label at
`eps1` is at most the number sharing its label at `eps2`. -/
theorem cluster_size_monotone_in_eps (pts : List Emb) (eps1 eps2 : ℚ)
    (h0 : 0 ≤ eps1) (h12 : eps1 ≤ eps2) (i : Nat) (hi : i < pts.length) :
    ((cluster_faces pts 1 eps1).filter
        (fun l => l == (cluster_faces pts 1 eps1).getD i (-1))).length ≤
      ((cluster_faces pts 1 eps2).filter
        (fun l => l == (cluster_faces pts 1 eps2).getD i (-1))).length := by
  have hlen : pts.length ≠ 0 := by omega
  rw [cluster_faces_of_length_pos hlen, cluster_faces_of_length_pos hlen,
    dbscanLabels_getD hi, dbscanLabels_getD hi, filter_label_length hi,
    filter_label_length hi]
  exact length_le_of_nodup_subset (comp_nodup pts eps1 1 i) (comp_mono h0 h12 hi)

unseal Rat.add Rat.mul Rat.inv Rat.sub in
/-- Witness for `cluster_size_monotone_in_eps`: faces `[0]`, `[2]` split at
`eps = 1` and merge at `eps = 2`; face 0's cluster grows from 1 to 2. -/
theorem cluster_size_monotone_in_eps_witness :
    ((cluster_faces [[0], [2]] 1 1).filter
        (fun l => l == (cluster_faces [[0], [2]] 1 1).getD 0 (-1))).length ≤
      ((cluster_faces [[0], [2]] 1 2).filter
        (fun l => l == (cluster_faces [[0], [2]] 1 2).getD 0 (-1))).length ∧
    cluster_faces [[0], [2]] 1 1 = [0, 1] ∧ cluster_faces [[0], [2]] 1 2 = [0, 0] :=
  ⟨cluster_size_monotone_in_eps [[0], [2]] 1 2 (by decide) (by decide) 0 (by decide),
    by decide, by decide⟩

unseal Rat.add Rat.mul Rat.inv Rat.sub in
/-- C7 counterexample: for an all-white face region (Laplacian variance 0,
mean grayscale brightness 255 — a constant image, so the statistics are
consistent) with bounding box top = 0, right = 20, bottom = 10, left = 0, the
computed quality score is −0.001 < 0, outside the claimed interval [0, 1]:
the brightness component `1 − |255 − 127|/127 = −1/127` is negative and is
not clamped. -/
theorem quality_score_can_be_negative :
    calculate_face_quality 0 255 0 20 10 0 = -(1/1000) ∧
    calculate_face_quality 0 255 0 20 10 0 < 0 := by
  exact ⟨by decide, by decide⟩

/-- C7 amended: the quality score is the weighted sum of the sharpness,
brightness, size and aspect-ratio component scores with weights 0.35, 0.25,
0.25, 0.15 (then rounded to three decimals), and for any face region
statistics (`laplacian_var ≥ 0`, mean brightness in [0, 255], a well-formed
box) it lies in [−1/500, 1] — not in [0, 1]: the brightness component can
reach −1/127. -/
theorem calculate_face_quality_weights_and_range (laplacian_var brightness : ℚ)
    (top right bottom left : ℤ) (hv : 0 ≤ laplacian_var)
    (hb0 : 0 ≤ brightness) (hb1 : brightness ≤ 255)
    (hbox1 : top ≤ bottom) (hbox2 : left ≤ right) :
    calculate_face_quality laplacian_var brightness top right bottom left =
      pyRound3 (sharpness_score laplacian_var * (35/100) +
        brightness_score brightness * (25/100) +
        size_score top right bottom left * (25/100) +
        aspect_score top right bottom left * (15/100)) ∧
    -(1/500) ≤ calculate_face_quality laplacian_var brightness top right bottom left ∧
    calculate_face_quality laplacian_var brightness top right bottom left ≤ 1 := by
  have hs := sharpness_score_bounds hv
  have hb := brightness_score_bounds hb0 hb1
  have hsz := size_score_bounds hbox1 hbox2
  have ha := aspect_score_bounds top right bottom left
  have h1 : -(1/508) ≤ sharpness_score laplacian_var * (35/100) +
      brightness_score brightness * (25/100) +
      size_score top right bottom left * (25/100) +
      aspect_score top right bottom left * (15/100) := by
    nlinarith [hs.1, hs.2, hb.1, hb.2, hsz.1, hsz.2, ha.1, ha.2]
  have h2 : sharpness_score laplacian_var * (35/100) +
      brightness_score brightness * (25/100) +
      size_score top right bottom left * (25/100) +
      aspect_score top right bottom left * (15/100) ≤ 1 := by
    nlinarith [hs.1, hs.2, hb.1, hb.2, hsz.1, hsz.2, ha.1, ha.2]
  have hbounds := pyRound3_bounds h1 h2
  exact ⟨rfl, hbounds.1, hbounds.2⟩

/-- Witness for `calculate_face_quality_weights_and_range`: an ideal face
(Laplacian variance 500, brightness 127, 200×200 box). -/
theorem calculate_face_quality_witness :
    (calculate_face_quality 500 127 0 200 200 0 =
      pyRound3 (sharpness_score 500 * (35/100) + brightness_score 127 * (25/100) +
        size_score 0 200 200 0 * (25/100) + aspect_score 0 200 200 0 * (15/100))) ∧
    -(1/500) ≤ calculate_face_quality 500 127 0 200 200 0 ∧
    calculate_face_quality 500 127 0 200 200 0 ≤ 1 :=
  calculate_face_quality_weights_and_range 500 127 0 200 200 0 (by decide)
    (by decide) (by decide) (by decide) (by decide)

/-- C8: clustering the empty batch returns the empty label sequence (the
early-return branch of `cluster_faces`), and is not an error. -/
theorem cluster_faces_empty_batch (min_samples : Nat) (eps : ℚ) :
    cluster_faces [] min_samples eps = [] := rfl

/-- C9: the thumbnail region is the bounding box expanded by the padding on
every side and clamped to the image bounds — `top' = max 0 (top − p)`,
`left' = max 0 (left − p)`, `bottom' = min height (bottom + p)`,
`right' = min width (right + p)` — the output is resized to the canonical
200×200 square, and the default padding is 40. -/
theorem extract_face_thumbnail_spec (top right bottom left height width p : ℤ) :
    extract_face_thumbnail top right bottom left height width p =
      ({ top := max 0 (top - p), left := max 0 (left - p),
         bottom := min height (bottom + p), right := min width (right + p) },
        (200, 200)) ∧
    extract_face_thumbnail top right bottom left height width =
      extract_face_thumbnail top right bottom left height width 40 :=
  ⟨rfl, rfl⟩

unseal Rat.add Rat.mul Rat.inv Rat.sub in
/-- C1, evaluated at a failing input: face 0 (embedding `[0]`) is clustered
alone in run 1 and stored under cluster id 0; run 2 re-clusters it (its photo
stayed unprocessed, e.g. because no CLIP embedding was stored) in a batch
where a new face `[2]` comes first, and stores face 0 under cluster id 1:
the person identity assigned at first creation is keyed by the raw per-run
DBSCAN label, so re-clustering changes it (and run 2's cluster id 0 collides
with run 1's person). -/
theorem person_id_changes_across_runs :
    (processRun DBState.init [⟨0, 0, [0], 1⟩]).faceAssign = [(0, 0)] ∧
    (processRun (processRun DBState.init [⟨0, 0, [0], 1⟩])
        [⟨1, 1, [2], 1⟩, ⟨0, 0, [0], 1⟩]).faceAssign =
      [(0, 0), (1, 0), (0, 1)] ∧
    (processRun (processRun DBState.init [⟨0, 0, [0], 1⟩])
        [⟨1, 1, [2], 1⟩, ⟨0, 0, [0], 1⟩]).clusterIds = [0, 1] ∧
    ((0 : Int) ≠ 1) := by
  exact ⟨by decide, by decide, by decide, by decide⟩

end Lumeo
